import Mathlib

/-!
Verification of the polymorphic trace-cache dispatcher specification for the
tensorflow-101 repository (chapter-7 notebook on graph tracing).

The repository's source is a notebook whose interesting behaviour (signature
extraction, per-signature caching of compiled graphs, trace-time vs. graph-time
side effects, conditional lowering) is delegated to an external framework; the
specification states the dispatcher abstractly.  The dispatcher itself is
therefore modelled here from the spec; the example computations (`double`,
`add`, `dense_layer`, the tanh `while` loop) are embedded from the notebook.
-/

namespace TF101

/-- Modelled from the spec: element types of tensor arguments (the underlying
framework's dtypes are external to this repository).  The notebook exercises
32-bit float, 32-bit integer and a text dtype. -/
inductive DType where
  | float32
  | int32
  | float64
  | int64
  | text
  | boolean
deriving DecidableEq, Repr

/-- Modelled from the spec (section 3, Data Model): one argument's entry in a
signature — either a tensor-like argument described by element type and shape
descriptor (`none` is a wildcard dimension), or a plain value folded into the
signature by value. -/
inductive ArgSig where
  | tensor (dtype : DType) (shape : List (Option Nat))
  | plain (value : Int)
deriving DecidableEq, Repr

/-- Modelled from the spec: a Signature is an ordered tuple of per-argument
descriptors. -/
abbrev Signature := List ArgSig

/-- Modelled from the spec (section 3): the dispatch-cache state of one traced
computation, absent from this repository.  `cache` maps signatures to compiled
units (identified by the id handed out at compile time), `traceLog` records one
entry per compilation — the trace-time side effect of the user computation —
and `invocations` counts calls through the dispatcher. -/
structure CacheState where
  cache : List (Signature × Nat)
  nextUnit : Nat
  traceLog : List Signature
  invocations : Nat
deriving DecidableEq, Repr

/-- Modelled from the spec: the cache is created empty when the dispatcher is
first constructed. -/
def initState : CacheState :=
  { cache := [], nextUnit := 0, traceLog := [], invocations := 0 }

/-- Lookup of a signature among the cache entries. -/
def lookupSig : List (Signature × Nat) → Signature → Option Nat
  | [], _ => none
  | (s', u) :: rest, s => if s' = s then some u else lookupSig rest s

/-- Modelled from the spec (section 4.3): `resolve` returns the existing
compiled unit if the signature is present; otherwise it invokes the trace
compiler (recording the trace-time side effect in `traceLog`), stores the new
unit, and returns it.  Every call counts as one invocation. -/
def resolve (st : CacheState) (s : Signature) : Nat × CacheState :=
  match lookupSig st.cache s with
  | some u => (u, { st with invocations := st.invocations + 1 })
  | none =>
      (st.nextUnit,
        { cache := (s, st.nextUnit) :: st.cache
          nextUnit := st.nextUnit + 1
          traceLog := st.traceLog ++ [s]
          invocations := st.invocations + 1 })

/-- Modelled from the spec (section 3): explicit invalidation clears the
cache (the traced function's source changed). -/
def resetCache (st : CacheState) : CacheState :=
  { st with cache := [] }

/-- Run a sequence of invocations through the dispatcher, returning the
compiled unit served to each call and the final cache state. -/
def runCalls : CacheState → List Signature → List Nat × CacheState
  | st, [] => ([], st)
  | st, s :: rest =>
      let r := resolve st s
      let rs := runCalls r.2 rest
      (r.1 :: rs.1, rs.2)

/-- Signature of a scalar 32-bit float tensor argument, as in the notebook's
`double(tf.constant(1.1))` call. -/
def sigF : Signature := [ArgSig.tensor DType.float32 []]

/-- Signature of a scalar 32-bit integer tensor argument, as in the notebook's
`double(tf.constant(1))` call. -/
def sigI : Signature := [ArgSig.tensor DType.int32 []]

/-- C1: dispatching `f(x) = x + x` with a 32-bit float scalar, then a 32-bit
integer scalar, then a 32-bit float scalar performs exactly 2 compilations and
3 invocations, and the second float call is served the unit of the first float
call while triggering no compilation (its trace log is unchanged). -/
theorem double_float_int_float_two_compilations_three_invocations :
    ((runCalls initState [sigF, sigI, sigF]).2.traceLog.length = 2 ∧
      (runCalls initState [sigF, sigI, sigF]).2.invocations = 3) ∧
    (runCalls initState [sigF, sigI, sigF]).1 = [0, 1, 0] ∧
    (resolve (runCalls initState [sigF, sigI]).2 sigF).1
        = (resolve initState sigF).1 ∧
    (resolve (runCalls initState [sigF, sigI]).2 sigF).2.traceLog
        = (runCalls initState [sigF, sigI]).2.traceLog := by
  decide

/-- A cache entry, once present, is untouched by any later `resolve`. -/
theorem lookupSig_resolve_persist {st : CacheState} {s : Signature} {u : Nat}
    (h : lookupSig st.cache s = some u) (s' : Signature) :
    lookupSig (resolve st s').2.cache s = some u := by
  unfold resolve
  cases hl : lookupSig st.cache s' with
  | some v => simpa using h
  | none =>
      simp only [lookupSig]
      by_cases hss : s' = s
      · subst hss
        rw [hl] at h
        exact absurd h (by simp)
      · simp [hss, h]

/-- A cache entry, once present, survives any later sequence of calls. -/
theorem lookupSig_runCalls_persist {st : CacheState} {s : Signature} {u : Nat}
    (h : lookupSig st.cache s = some u) (calls : List Signature) :
    lookupSig (runCalls st calls).2.cache s = some u := by
  induction calls generalizing st with
  | nil => simpa [runCalls] using h
  | cons c rest ih =>
      simp only [runCalls]
      exact ih (lookupSig_resolve_persist h c)

/-- After `resolve st s`, the cache maps `s` to the unit that was served. -/
theorem lookupSig_resolve_self (st : CacheState) (s : Signature) :
    lookupSig (resolve st s).2.cache s = some (resolve st s).1 := by
  unfold resolve
  cases hl : lookupSig st.cache s with
  | some v => simpa using hl
  | none => simp [lookupSig]

/-- The unit served to the `i`-th call of a run is the unit the final cache
holds for that call's signature. -/
theorem runCalls_output_eq_final_lookup (calls : List Signature)
    (st : CacheState) (i : Nat) (s : Signature) (hi : calls[i]? = some s) :
    (runCalls st calls).1[i]? = lookupSig (runCalls st calls).2.cache s := by
  induction calls generalizing st i with
  | nil => simp at hi
  | cons c rest ih =>
      cases i with
      | zero =>
          simp only [List.getElem?_cons_zero, Option.some_inj] at hi
          simp only [runCalls, List.getElem?_cons_zero]
          rw [← hi]
          exact (lookupSig_runCalls_persist (lookupSig_resolve_self st c) rest).symm
      | succ n =>
          simp only [List.getElem?_cons_succ] at hi
          simp only [runCalls, List.getElem?_cons_succ]
          exact ih _ n hi

/-- Cache presence after one `resolve`: present before, or just compiled. -/
theorem lookupSig_resolve_isSome (st : CacheState) (s s' : Signature) :
    (lookupSig (resolve st s').2.cache s).isSome = true ↔
      (lookupSig st.cache s).isSome = true ∨ s = s' := by
  unfold resolve
  cases hl : lookupSig st.cache s' with
  | some v =>
      simp only
      constructor
      · exact fun h => Or.inl h
      · rintro (h | rfl)
        · exact h
        · simp [hl]
  | none =>
      simp only [lookupSig]
      by_cases hss : s' = s
      · subst hss
        simp
      · have : ¬s = s' := fun h => hss h.symm
        simp [hss, this]

/-- Cache presence after a run: present before, or the signature was called. -/
theorem lookupSig_runCalls_isSome (calls : List Signature) (st : CacheState)
    (s : Signature) :
    (lookupSig (runCalls st calls).2.cache s).isSome = true ↔
      (lookupSig st.cache s).isSome = true ∨ s ∈ calls := by
  induction calls generalizing st with
  | nil => simp [runCalls]
  | cons c rest ih =>
      simp only [runCalls, List.mem_cons]
      rw [ih, lookupSig_resolve_isSome]
      tauto

/-- The compilation-log invariant: the trace log lists exactly the cached
signatures, with no duplicates. -/
def LogMatchesCache (st : CacheState) : Prop :=
  (∀ s : Signature, s ∈ st.traceLog ↔ (lookupSig st.cache s).isSome = true) ∧
    st.traceLog.Nodup

/-- One `resolve` preserves the compilation-log invariant. -/
theorem logMatchesCache_resolve {st : CacheState} (h : LogMatchesCache st)
    (s : Signature) : LogMatchesCache (resolve st s).2 := by
  obtain ⟨hmem, hnd⟩ := h
  unfold resolve
  cases hl : lookupSig st.cache s with
  | some v => exact ⟨hmem, hnd⟩
  | none =>
      constructor
      · intro s'
        simp only [List.mem_append, List.mem_singleton, lookupSig]
        by_cases hss : s = s'
        · subst hss
          simp
        · have : ¬s' = s := fun h => hss h.symm
          simp [hss, hmem s', this]
      · refine List.Nodup.append hnd (List.nodup_singleton s) ?_
        intro s' hs' hs''
        simp only [List.mem_singleton] at hs''
        subst hs''
        rw [hmem s', hl] at hs'
        simp at hs'

/-- Any run from any state satisfying the invariant preserves it. -/
theorem logMatchesCache_runCalls {st : CacheState} (h : LogMatchesCache st)
    (calls : List Signature) : LogMatchesCache (runCalls st calls).2 := by
  induction calls generalizing st with
  | nil => simpa [runCalls] using h
  | cons c rest ih =>
      simp only [runCalls]
      exact ih (logMatchesCache_resolve h c)

/-- The empty initial state satisfies the invariant. -/
theorem logMatchesCache_init : LogMatchesCache initState := by
  constructor
  · intro s
    simp [initState, lookupSig]
  · simp [initState]

/-- C2: in every sequence of invocations of one dispatched computation, calls
whose signatures are equal are served the same compiled unit, and the
trace-time side effect fires exactly once per distinct signature: the trace
log is duplicate-free and contains exactly the signatures that occur in the
call sequence. -/
theorem same_signature_same_unit_and_trace_once_per_signature
    (calls : List Signature) :
    (∀ i j : Nat, calls[i]? = calls[j]? →
        (runCalls initState calls).1[i]? = (runCalls initState calls).1[j]?) ∧
    (runCalls initState calls).2.traceLog.Nodup ∧
    (∀ s : Signature,
        s ∈ (runCalls initState calls).2.traceLog ↔ s ∈ calls) := by
  have hlen : ∀ (st : CacheState) (cs : List Signature),
      (runCalls st cs).1.length = cs.length := by
    intro st cs
    induction cs generalizing st with
    | nil => simp [runCalls]
    | cons c rest ih => simp [runCalls, ih]
  refine ⟨?_, ?_, ?_⟩
  · intro i j hij
    cases hi : calls[i]? with
    | none =>
        rw [hi] at hij
        have hi' : calls.length ≤ i := by
          simpa using List.getElem?_eq_none_iff.mp hi
        have hj' : calls.length ≤ j := by
          simpa using List.getElem?_eq_none_iff.mp hij.symm
        have : (runCalls initState calls).1[i]? = none :=
          List.getElem?_eq_none_iff.mpr (by rw [hlen]; exact hi')
        have h2 : (runCalls initState calls).1[j]? = none :=
          List.getElem?_eq_none_iff.mpr (by rw [hlen]; exact hj')
        rw [this, h2]
    | some s =>
        rw [hi] at hij
        rw [runCalls_output_eq_final_lookup calls initState i s hi,
          runCalls_output_eq_final_lookup calls initState j s hij.symm]
  · exact (logMatchesCache_runCalls logMatchesCache_init calls).2
  · intro s
    rw [(logMatchesCache_runCalls logMatchesCache_init calls).1 s,
      lookupSig_runCalls_isSome]
    simp [initState, lookupSig]

/-- Witness for C2 at the notebook's float/int/float call sequence: calls 0
and 2 have equal signatures and are served the same compiled unit. -/
theorem same_signature_same_unit_witness :
    [sigF, sigI, sigF][0]? = [sigF, sigI, sigF][2]? ∧
      (runCalls initState [sigF, sigI, sigF]).1[0]?
        = (runCalls initState [sigF, sigI, sigF]).1[2]? :=
  ⟨by decide,
    (same_signature_same_unit_and_trace_once_per_signature
      [sigF, sigI, sigF]).1 0 2 (by decide)⟩

/-- Modelled from the spec: the cache states reachable from construction by
dispatch (`resolve`) steps and explicit invalidation (`resetCache`). -/
inductive Reachable : CacheState → Prop
  | init : Reachable initState
  | step (st : CacheState) (s : Signature) :
      Reachable st → Reachable (resolve st s).2
  | reset (st : CacheState) : Reachable st → Reachable (resetCache st)

/-- A signature absent from the lookup is absent from the key list. -/
theorem lookupSig_eq_none_iff (c : List (Signature × Nat)) (s : Signature) :
    lookupSig c s = none ↔ s ∉ c.map Prod.fst := by
  induction c with
  | nil => simp [lookupSig]
  | cons p rest ih =>
      obtain ⟨s', u⟩ := p
      simp only [lookupSig, List.map_cons, List.mem_cons]
      by_cases h : s' = s
      · subst h
        simp
      · have : ¬s = s' := fun hh => h hh.symm
        simp [h, this, ih]

/-- In every reachable cache state the signature keys are pairwise distinct:
at most one compiled unit per signature. -/
theorem reachable_keys_nodup {st : CacheState} (h : Reachable st) :
    (st.cache.map Prod.fst).Nodup := by
  induction h with
  | init => simp [initState]
  | step st' s _ ih =>
      unfold resolve
      cases hl : lookupSig st'.cache s with
      | some u => simpa using ih
      | none =>
          simp only [List.map_cons, List.nodup_cons]
          exact ⟨(lookupSig_eq_none_iff st'.cache s).mp hl, ih⟩
  | reset st' _ _ => simp [resetCache]

/-- C3: `resolve` returns the existing unit (leaving the cache untouched) when
the signature is present; otherwise it compiles, stores and returns a fresh
unit; every reachable cache state holds at most one compiled unit per
signature; and a `resolve` step never replaces an existing entry — only
explicit invalidation (`resetCache`) removes entries. -/
theorem resolve_cache_contract (st : CacheState) (s : Signature)
    (hr : Reachable st) :
    (∀ u : Nat, lookupSig st.cache s = some u →
        (resolve st s).1 = u ∧ (resolve st s).2.cache = st.cache) ∧
    (lookupSig st.cache s = none →
        (resolve st s).1 = st.nextUnit ∧
          (resolve st s).2.cache = (s, st.nextUnit) :: st.cache) ∧
    (st.cache.map Prod.fst).Nodup ∧
    (∀ (s' : Signature) (u : Nat), lookupSig st.cache s' = some u →
        lookupSig (resolve st s).2.cache s' = some u) := by
  refine ⟨?_, ?_, reachable_keys_nodup hr, ?_⟩
  · intro u hu
    unfold resolve
    rw [hu]
    exact ⟨rfl, rfl⟩
  · intro hn
    unfold resolve
    rw [hn]
    exact ⟨rfl, rfl⟩
  · intro s' u hu
    exact lookupSig_resolve_persist hu s

/-- Witness for C3 after one compilation from the empty state: the float
signature is cached with unit 0, a hit returns it unchanged, and the key list
is duplicate-free. -/
theorem resolve_cache_contract_witness :
    Reachable (resolve initState sigF).2 ∧
    lookupSig (resolve initState sigF).2.cache sigF = some 0 ∧
    (resolve (resolve initState sigF).2 sigF).1 = 0 ∧
    (resolve (resolve initState sigF).2 sigF).2.cache
        = (resolve initState sigF).2.cache ∧
    ((resolve initState sigF).2.cache.map Prod.fst).Nodup := by
  have hr : Reachable (resolve initState sigF).2 :=
    Reachable.step initState sigF Reachable.init
  have hc := resolve_cache_contract (resolve initState sigF).2 sigF hr
  have hl : lookupSig (resolve initState sigF).2.cache sigF = some 0 := by
    decide
  exact ⟨hr, hl, (hc.1 0 hl).1, (hc.1 0 hl).2, hc.2.2.1⟩

/-- Running an appended call sequence runs the suffix from the state the
prefix reached. -/
theorem runCalls_append_state (st : CacheState) (xs ys : List Signature) :
    (runCalls st (xs ++ ys)).2 = (runCalls (runCalls st xs).2 ys).2 := by
  induction xs generalizing st with
  | nil => simp [runCalls]
  | cons c rest ih =>
      simp only [List.cons_append, runCalls]
      exact ih (resolve st c).2

/-- C6 counterexample: after the calls (float32 scalar, int32 scalar),
changing the element type of the int32 call's single argument back to float32
yields a signature that equals a previously seen signature, and the resulting
call triggers zero new compilations — refuting the claim that any such change
yields a signature distinct from all previously seen ones and exactly one new
compilation. -/
theorem changed_dtype_signature_not_always_new :
    sigI = [ArgSig.tensor DType.int32 []] ∧
    sigF = [ArgSig.tensor DType.float32 []] ∧
    sigF ∈ [sigF, sigI] ∧
    (resolve (runCalls initState [sigF, sigI]).2 sigF).2.traceLog.length
        = (runCalls initState [sigF, sigI]).2.traceLog.length := by
  decide

/-- C6 (amended): changing the element type or the shape descriptor of one
argument yields a signature different from that invocation's signature, and a
signature distinct from all previously seen ones triggers exactly one new
compilation when called. -/
theorem changed_argument_new_signature_one_compilation :
    (∀ (pre post : List ArgSig) (d d' : DType)
        (sh sh' : List (Option Nat)),
        d ≠ d' ∨ sh ≠ sh' →
        (pre ++ ArgSig.tensor d sh :: post : Signature)
          ≠ pre ++ ArgSig.tensor d' sh' :: post) ∧
    (∀ (calls : List Signature) (s : Signature), s ∉ calls →
        (runCalls initState (calls ++ [s])).2.traceLog.length
          = (runCalls initState calls).2.traceLog.length + 1) := by
  constructor
  · intro pre post d d' sh sh' hne heq
    have h1 : ArgSig.tensor d sh :: post = ArgSig.tensor d' sh' :: post :=
      List.append_cancel_left heq
    have h2 : ArgSig.tensor d sh = ArgSig.tensor d' sh' :=
      (List.cons_eq_cons.mp h1).1
    cases h2
    rcases hne with h | h
    · exact h rfl
    · exact h rfl
  · intro calls s hs
    rw [runCalls_append_state]
    have hnone : lookupSig (runCalls initState calls).2.cache s = none := by
      rw [← Option.not_isSome_iff_eq_none, lookupSig_runCalls_isSome]
      simp [initState, lookupSig, hs]
    simp only [runCalls]
    unfold resolve
    rw [hnone]
    simp

/-- Witness for C6 (amended): changing the scalar argument's element type from
int32 to float32 changes the signature, and the unseen float32 signature
compiles exactly once after an int32-only history. -/
theorem changed_argument_new_signature_one_compilation_witness :
    ((DType.int32 ≠ DType.float32 ∨ ([] : List (Option Nat)) ≠ []) ∧
      (([] : List ArgSig) ++ ArgSig.tensor DType.int32 [] :: [] : Signature)
        ≠ ([] : List ArgSig) ++ ArgSig.tensor DType.float32 [] :: []) ∧
    (sigF ∉ [sigI] ∧
      (runCalls initState ([sigI] ++ [sigF])).2.traceLog.length
        = (runCalls initState [sigI]).2.traceLog.length + 1) :=
  ⟨⟨Or.inl (by decide),
      changed_argument_new_signature_one_compilation.1 [] [] DType.int32
        DType.float32 [] [] (Or.inl (by decide))⟩,
    ⟨by decide,
      changed_argument_new_signature_one_compilation.2 [sigI] sigF
        (by decide)⟩⟩

/-- Modelled from the spec (section 7): the typed errors of the dispatcher —
signature extraction failure, compilation failure, and capture inconsistency
across retraces. -/
inductive TraceError where
  | signatureExtraction
  | compilation
  | captureInconsistency
deriving DecidableEq, Repr

/-- Modelled from the spec (sections 4.3 and 7): `resolveE` is `resolve` with
a fallible trace compiler.  A cache hit returns the stored unit; a miss runs
the compiler, whose error is returned to this caller.  The second component
counts how many times the compiler was invoked during this call. -/
def resolveE (compile : Signature → Except TraceError Unit)
    (st : CacheState) (s : Signature) :
    Except TraceError (Nat × CacheState) × Nat :=
  match lookupSig st.cache s with
  | some u => (Except.ok (u, { st with invocations := st.invocations + 1 }), 0)
  | none =>
      match compile s with
      | Except.error e => (Except.error e, 1)
      | Except.ok _ =>
          (Except.ok
            (st.nextUnit,
              { cache := (s, st.nextUnit) :: st.cache
                nextUnit := st.nextUnit + 1
                traceLog := st.traceLog ++ [s]
                invocations := st.invocations + 1 }), 1)

/-- C7: a cache hit never raises a dispatcher error (and invokes the compiler
zero times), while on a miss any `SignatureExtractionError`,
`CompilationError` or `CaptureInconsistencyError` of the single compiler
invocation is returned synchronously to that caller, with exactly one compile
attempt and no automatic retry. -/
theorem dispatch_errors_synchronous_no_retry
    (compile : Signature → Except TraceError Unit) (st : CacheState)
    (s : Signature) :
    (∀ u : Nat, lookupSig st.cache s = some u →
        resolveE compile st s =
          (Except.ok (u, { st with invocations := st.invocations + 1 }), 0)) ∧
    (∀ e : TraceError, lookupSig st.cache s = none → compile s = .error e →
        resolveE compile st s = (Except.error e, 1)) := by
  constructor
  · intro u hu
    unfold resolveE
    rw [hu]
  · intro e hn he
    unfold resolveE
    rw [hn, he]

/-- Witness for C7: with a compiler that always reports a compilation error,
a first call on the empty cache surfaces exactly that error with one compile
attempt, and after a successful compilation a hit returns the unit with zero
attempts and no error. -/
theorem dispatch_errors_synchronous_no_retry_witness :
    (lookupSig initState.cache sigF = none ∧
      resolveE (fun _ => Except.error TraceError.compilation) initState sigF
        = (Except.error TraceError.compilation, 1)) ∧
    (lookupSig (resolve initState sigF).2.cache sigF = some 0 ∧
      resolveE (fun _ => Except.error TraceError.compilation)
          (resolve initState sigF).2 sigF
        = (Except.ok
            (0, { (resolve initState sigF).2 with
                  invocations := (resolve initState sigF).2.invocations + 1 }),
            0)) :=
  ⟨⟨by decide,
      (dispatch_errors_synchronous_no_retry
          (fun _ => Except.error TraceError.compilation) initState sigF).2
        TraceError.compilation (by decide) rfl⟩,
    ⟨by decide,
      (dispatch_errors_synchronous_no_retry
          (fun _ => Except.error TraceError.compilation)
          (resolve initState sigF).2 sigF).1 0 (by decide)⟩⟩

/-- Modelled from the spec (section 5): the phase of one thread attempting to
resolve a not-yet-compiled signature — idle, holding the per-key lock,
tracing under the lock, or finished. -/
inductive ThreadPhase where
  | idle
  | holding
  | tracing
  | finished
deriving DecidableEq, Repr

/-- Modelled from the spec (section 5): the shared state of `n` threads
concurrently invoking the dispatcher on one signature before it is first
resolved.  `units` counts compiled units committed to the cache for that
signature, `compiles` counts compilation side-effect events, and `lockHeld`
is the per-(computation, signature) mutual-exclusion lock. -/
structure ConcState (n : Nat) where
  units : Nat
  compiles : Nat
  lockHeld : Option (Fin n)
  phase : Fin n → ThreadPhase

/-- The state before any thread has run: no unit, no compilation, lock free. -/
def initConc (n : Nat) : ConcState n :=
  { units := 0, compiles := 0, lockHeld := none, phase := fun _ => .idle }

/-- Modelled from the spec (section 5): one interleaved step.  An idle thread
observing a committed unit finishes (cache hit); an idle thread takes the free
lock; a lock holder re-checks the cache and either finishes on a hit or starts
tracing on a miss; a tracing thread commits its unit (the compilation side
effect) and releases the lock. -/
inductive ConcStep {n : Nat} : ConcState n → ConcState n → Prop
  | hit (st : ConcState n) (t : Fin n) :
      st.phase t = .idle → 0 < st.units →
      ConcStep st { st with phase := Function.update st.phase t .finished }
  | acquire (st : ConcState n) (t : Fin n) :
      st.phase t = .idle → st.lockHeld = none →
      ConcStep st
        { st with lockHeld := some t
                  phase := Function.update st.phase t .holding }
  | checkFound (st : ConcState n) (t : Fin n) :
      st.phase t = .holding → 0 < st.units →
      ConcStep st
        { st with lockHeld := none
                  phase := Function.update st.phase t .finished }
  | checkMiss (st : ConcState n) (t : Fin n) :
      st.phase t = .holding → st.units = 0 →
      ConcStep st { st with phase := Function.update st.phase t .tracing }
  | commit (st : ConcState n) (t : Fin n) :
      st.phase t = .tracing →
      ConcStep st
        { st with units := st.units + 1
                  compiles := st.compiles + 1
                  lockHeld := none
                  phase := Function.update st.phase t .finished }

/-- States reachable by interleaving the threads from the initial state. -/
inductive ConcReachable {n : Nat} : ConcState n → Prop
  | init : ConcReachable (initConc n)
  | step {st st' : ConcState n} :
      ConcReachable st → ConcStep st st' → ConcReachable st'

/-- The inductive invariant of the lock protocol: a thread between lock
acquisition and release owns the lock; every committed unit was compiled
exactly once; a tracing thread observed a miss that still holds; at most one
unit is ever committed. -/
def ConcInv {n : Nat} (st : ConcState n) : Prop :=
  (∀ t : Fin n, st.phase t = .holding ∨ st.phase t = .tracing →
      st.lockHeld = some t) ∧
  st.compiles = st.units ∧
  (∀ t : Fin n, st.phase t = .tracing → st.units = 0) ∧
  st.units ≤ 1

/-- Every interleaved step preserves the lock-protocol invariant. -/
theorem concInv_step {n : Nat} {st st' : ConcState n} (h : ConcInv st)
    (hs : ConcStep st st') : ConcInv st' := by
  obtain ⟨hlock, hcu, htr, hle⟩ := h
  cases hs with
  | hit t ht hu =>
      refine ⟨?_, hcu, ?_, hle⟩
      · intro t' ht'
        by_cases htt : t' = t
        · subst htt
          simp [Function.update_same] at ht'
        · simp only [Function.update_noteq htt] at ht'
          exact hlock t' ht'
      · intro t' ht'
        by_cases htt : t' = t
        · subst htt
          simp [Function.update_same] at ht'
        · simp only [Function.update_noteq htt] at ht'
          exact htr t' ht'
  | acquire t ht hfree =>
      refine ⟨?_, hcu, ?_, hle⟩
      · intro t' ht'
        by_cases htt : t' = t
        · subst htt
          rfl
        · simp only [Function.update_noteq htt] at ht'
          exact absurd (hlock t' ht') (by rw [hfree]; simp)
      · intro t' ht'
        by_cases htt : t' = t
        · subst htt
          simp [Function.update_same] at ht'
        · simp only [Function.update_noteq htt] at ht'
          exact htr t' ht'
  | checkFound t ht hu =>
      refine ⟨?_, hcu, ?_, hle⟩
      · intro t' ht'
        by_cases htt : t' = t
        · subst htt
          simp [Function.update_same] at ht'
        · simp only [Function.update_noteq htt] at ht'
          have h1 := hlock t' ht'
          have h2 := hlock t (Or.inl ht)
          rw [h2] at h1
          exact absurd (Option.some_inj.mp h1).symm htt
      · intro t' ht'
        by_cases htt : t' = t
        · subst htt
          simp [Function.update_same] at ht'
        · simp only [Function.update_noteq htt] at ht'
          exact htr t' ht'
  | checkMiss t ht hu =>
      refine ⟨?_, hcu, ?_, hle⟩
      · intro t' ht'
        by_cases htt : t' = t
        · subst htt
          exact hlock t' (Or.inl ht)
        · simp only [Function.update_noteq htt] at ht'
          exact hlock t' ht'
      · intro t' ht'
        exact hu
  | commit t ht =>
      have hu : st.units = 0 := htr t ht
      refine ⟨?_, by simp [hcu], ?_, by simp [hu]⟩
      · intro t' ht'
        by_cases htt : t' = t
        · subst htt
          simp [Function.update_same] at ht'
        · simp only [Function.update_noteq htt] at ht'
          have h1 := hlock t' ht'
          have h2 := hlock t (Or.inr ht)
          rw [h2] at h1
          exact absurd (Option.some_inj.mp h1).symm htt
      · intro t' ht'
        by_cases htt : t' = t
        · subst htt
          simp [Function.update_same] at ht'
        · simp only [Function.update_noteq htt] at ht'
          have h1 := hlock t' (Or.inr ht')
          have h2 := hlock t (Or.inr ht)
          rw [h2] at h1
          exact absurd (Option.some_inj.mp h1).symm htt

/-- The invariant holds in every reachable interleaved state. -/
theorem concInv_reachable {n : Nat} {st : ConcState n}
    (h : ConcReachable st) : ConcInv st := by
  induction h with
  | init =>
      refine ⟨?_, rfl, ?_, by simp [initConc]⟩
      · intro t ht
        simp [initConc] at ht
      · intro t ht
        simp [initConc] at ht
  | step _ hs ih => exact concInv_step ih hs

/-- C8: under the per-key lock protocol, every state reachable by threads
concurrently invoking the dispatcher on one signature before it is first
resolved has at most one committed compiled unit for that signature and at
most one compilation side-effect event. -/
theorem concurrent_first_resolve_at_most_one_unit {n : Nat}
    {st : ConcState n} (h : ConcReachable st) :
    st.units ≤ 1 ∧ st.compiles ≤ 1 := by
  obtain ⟨_, hcu, _, hle⟩ := concInv_reachable h
  exact ⟨hle, by rw [hcu]; exact hle⟩

/-- Witness for C8: the state two threads reach when thread 0 acquires the
lock, observes a miss, traces and commits has exactly one unit and one
compilation event. -/
theorem concurrent_first_resolve_at_most_one_unit_witness :
    ConcReachable
      ({ units := 1, compiles := 1, lockHeld := none
         phase := Function.update (Function.update (Function.update
            (fun _ => ThreadPhase.idle) (0 : Fin 2) ThreadPhase.holding)
            (0 : Fin 2) ThreadPhase.tracing) (0 : Fin 2) ThreadPhase.finished }
        : ConcState 2) ∧
    (1 : Nat) ≤ 1 ∧ (1 : Nat) ≤ 1 := by
  have h1 : ConcReachable
      ({ units := 0, compiles := 0, lockHeld := some (0 : Fin 2)
         phase := Function.update (fun _ => ThreadPhase.idle) (0 : Fin 2)
            ThreadPhase.holding } : ConcState 2) :=
    ConcReachable.step ConcReachable.init
      (ConcStep.acquire (initConc 2) 0 rfl rfl)
  have h2 : ConcReachable
      ({ units := 0, compiles := 0, lockHeld := some (0 : Fin 2)
         phase := Function.update (Function.update (fun _ => ThreadPhase.idle)
            (0 : Fin 2) ThreadPhase.holding) (0 : Fin 2) ThreadPhase.tracing }
        : ConcState 2) :=
    ConcReachable.step h1
      (ConcStep.checkMiss _ 0 (by simp [Function.update_same]) rfl)
  have h3 : ConcReachable
      ({ units := 1, compiles := 1, lockHeld := none
         phase := Function.update (Function.update (Function.update
            (fun _ => ThreadPhase.idle) (0 : Fin 2) ThreadPhase.holding)
            (0 : Fin 2) ThreadPhase.tracing) (0 : Fin 2) ThreadPhase.finished }
        : ConcState 2) :=
    ConcReachable.step h2
      (ConcStep.commit _ 0 (by simp [Function.update_same]))
  exact ⟨h3, concurrent_first_resolve_at_most_one_unit h3⟩

/-- Modelled from the spec (section 4.2): a user computation as recorded by
the tracer — variables (arguments), embedded constants, binary framework
operations (named by an operation id), a conditional on a traced tensor value
(`condT`, the notebook's AutoGraph/`tf.cond` case), a conditional on a
non-traced constant (`condPy`, the notebook's Python conditional), a
trace-time-only side effect (`tracePrint`, the notebook's Python `print`) and
a graph-level side effect (`graphPrint`, the notebook's `tf.print`).
Side-effect messages are identified by number. -/
inductive Comp (V : Type) where
  | var (i : Nat)
  | lit (v : V)
  | op2 (name : Nat) (a b : Comp V)
  | condT (c t e : Comp V)
  | condPy (b : Bool) (t e : Comp V)
  | tracePrint (msg : Nat) (k : Comp V)
  | graphPrint (msg : Nat) (k : Comp V)
deriving DecidableEq

/-- Modelled from the spec (sections 2 and 3): the portable computation graph
of a compiled unit.  A traced conditional becomes a branch-selection node
carrying both branches; trace-time prints leave no node. -/
inductive Graph (V : Type) where
  | input (i : Nat)
  | constNode (v : V)
  | op2 (name : Nat) (a b : Graph V)
  | cond (c t e : Graph V)
  | gprint (msg : Nat) (k : Graph V)
deriving DecidableEq

variable {V : Type}

/-- Modelled from the spec (section 4.2): the trace compiler executes the
computation once symbolically, returning the recorded graph and the list of
trace-time side effects.  A `condT` records both branches; a `condPy` is
resolved at trace time and only the taken branch is recorded; a `tracePrint`
fires now and leaves no node; a `graphPrint` becomes a graph node. -/
def traceComp : Comp V → Graph V × List Nat
  | .var i => (.input i, [])
  | .lit v => (.constNode v, [])
  | .op2 n a b =>
      (.op2 n (traceComp a).1 (traceComp b).1,
        (traceComp a).2 ++ (traceComp b).2)
  | .condT c t e =>
      (.cond (traceComp c).1 (traceComp t).1 (traceComp e).1,
        ((traceComp c).2 ++ (traceComp t).2) ++ (traceComp e).2)
  | .condPy b t e => if b then traceComp t else traceComp e
  | .tracePrint m k => ((traceComp k).1, m :: (traceComp k).2)
  | .graphPrint m k => (.gprint m (traceComp k).1, (traceComp k).2)

/-- Modelled from the spec (section 6): the execution backend runs a compiled
graph on concrete inputs, given the framework's operation semantics `ops` and
truthiness of condition values `truthy`; it returns the value and the run-time
side effects.  A branch-selection node runs only the selected branch. -/
def evalGraph (ops : Nat → V → V → V) (truthy : V → Bool) (env : Nat → V) :
    Graph V → V × List Nat
  | .input i => (env i, [])
  | .constNode v => (v, [])
  | .op2 n a b =>
      (ops n (evalGraph ops truthy env a).1 (evalGraph ops truthy env b).1,
        (evalGraph ops truthy env a).2 ++ (evalGraph ops truthy env b).2)
  | .cond c t e =>
      if truthy (evalGraph ops truthy env c).1 then
        ((evalGraph ops truthy env t).1,
          (evalGraph ops truthy env c).2 ++ (evalGraph ops truthy env t).2)
      else
        ((evalGraph ops truthy env e).1,
          (evalGraph ops truthy env c).2 ++ (evalGraph ops truthy env e).2)
  | .gprint m k =>
      ((evalGraph ops truthy env k).1, m :: (evalGraph ops truthy env k).2)

/-- Direct (eager) execution of the user computation on concrete arguments:
both kinds of print fire on every call, and both kinds of conditional take
only the branch selected by the concrete condition. -/
def eagerEval (ops : Nat → V → V → V) (truthy : V → Bool) (env : Nat → V) :
    Comp V → V × List Nat
  | .var i => (env i, [])
  | .lit v => (v, [])
  | .op2 n a b =>
      (ops n (eagerEval ops truthy env a).1 (eagerEval ops truthy env b).1,
        (eagerEval ops truthy env a).2 ++ (eagerEval ops truthy env b).2)
  | .condT c t e =>
      if truthy (eagerEval ops truthy env c).1 then
        ((eagerEval ops truthy env t).1,
          (eagerEval ops truthy env c).2 ++ (eagerEval ops truthy env t).2)
      else
        ((eagerEval ops truthy env e).1,
          (eagerEval ops truthy env c).2 ++ (eagerEval ops truthy env e).2)
  | .condPy b t e =>
      if b then eagerEval ops truthy env t else eagerEval ops truthy env e
  | .tracePrint m k =>
      ((eagerEval ops truthy env k).1, m :: (eagerEval ops truthy env k).2)
  | .graphPrint m k =>
      ((eagerEval ops truthy env k).1, m :: (eagerEval ops truthy env k).2)

/-- Soundness of the trace compiler: running the graph recorded by one trace
on any concrete arguments yields the value of direct execution. -/
theorem evalGraph_traceComp (ops : Nat → V → V → V) (truthy : V → Bool)
    (env : Nat → V) (c : Comp V) :
    (evalGraph ops truthy env (traceComp c).1).1
      = (eagerEval ops truthy env c).1 := by
  induction c with
  | var i => rfl
  | lit v => rfl
  | op2 n a b iha ihb => simp [traceComp, evalGraph, eagerEval, iha, ihb]
  | condT c t e ihc iht ihe =>
      simp only [traceComp, evalGraph, eagerEval, ihc]
      by_cases h : truthy (eagerEval ops truthy env c).1
      · simp [h, iht]
      · simp [h, ihe]
  | condPy b t e iht ihe =>
      cases b
      · simpa [traceComp, eagerEval] using ihe
      · simpa [traceComp, eagerEval] using iht
  | tracePrint m k ihk => simpa [traceComp, eagerEval] using ihk
  | graphPrint m k ihk => simpa [traceComp, evalGraph, eagerEval] using ihk

/-- C4: a conditional whose condition depends on a traced value is compiled
into a branch-selection node carrying both branches, and the single compiled
graph — no further trace is taken — selects the then-branch on an invocation
whose condition is true and the else-branch on an invocation whose condition
is false, with the value of direct execution of that branch. -/
theorem traced_conditional_both_branches_no_retrace
    (ops : Nat → V → V → V) (truthy : V → Bool) (c t e : Comp V)
    (env₁ env₂ : Nat → V)
    (h₁ : truthy (eagerEval ops truthy env₁ c).1 = true)
    (h₂ : truthy (eagerEval ops truthy env₂ c).1 = false) :
    (traceComp (Comp.condT c t e)).1
        = Graph.cond (traceComp c).1 (traceComp t).1 (traceComp e).1 ∧
    (evalGraph ops truthy env₁ (traceComp (Comp.condT c t e)).1).1
        = (eagerEval ops truthy env₁ t).1 ∧
    (evalGraph ops truthy env₂ (traceComp (Comp.condT c t e)).1).1
        = (eagerEval ops truthy env₂ e).1 := by
  refine ⟨rfl, ?_, ?_⟩
  · simp [traceComp, evalGraph, evalGraph_traceComp, h₁]
  · simp [traceComp, evalGraph, evalGraph_traceComp, h₂]

/-- Integer instance of the framework operations, used for concrete runs:
every operation id denotes addition. -/
def intOps : Nat → Int → Int → Int := fun _ a b => a + b

/-- Integer truthiness: non-zero values are true. -/
def intTruthy : Int → Bool := fun v => v != 0

/-- The all-ones argument environment. -/
def envOne : Nat → Int := fun _ => 1

/-- The all-zeros argument environment. -/
def envZero : Nat → Int := fun _ => 0

/-- Witness for C4: the conditional on argument 0 is compiled once; the same
graph returns the then-branch value 10 on a true-condition invocation and the
else-branch value 20 on a false-condition invocation. -/
theorem traced_conditional_both_branches_no_retrace_witness :
    intTruthy (eagerEval intOps intTruthy envOne (Comp.var 0)).1 = true ∧
    intTruthy (eagerEval intOps intTruthy envZero (Comp.var 0)).1 = false ∧
    ((evalGraph intOps intTruthy envOne
        (traceComp (Comp.condT (Comp.var 0) (Comp.lit (10 : Int))
          (Comp.lit 20))).1).1
      = (eagerEval intOps intTruthy envOne (Comp.lit (10 : Int))).1 ∧
    (evalGraph intOps intTruthy envZero
        (traceComp (Comp.condT (Comp.var 0) (Comp.lit (10 : Int))
          (Comp.lit 20))).1).1
      = (eagerEval intOps intTruthy envZero (Comp.lit (20 : Int))).1) :=
  ⟨rfl, rfl,
    (traced_conditional_both_branches_no_retrace intOps intTruthy (Comp.var 0)
      (Comp.lit 10) (Comp.lit 20) envOne envZero rfl rfl).2⟩

/-- C5: a conditional whose condition is a non-traced constant is resolved at
trace time: the compiled unit and the trace-time side-effect log are exactly
those of the taken branch, so the untaken branch is not recorded, its
trace-time side effects do not fire, and no execution of the compiled unit
ever runs it. -/
theorem constant_conditional_taken_branch_only
    (ops : Nat → V → V → V) (truthy : V → Bool) (b : Bool) (t e : Comp V)
    (env : Nat → V) :
    (b = true → traceComp (Comp.condPy b t e) = traceComp t ∧
        evalGraph ops truthy env (traceComp (Comp.condPy b t e)).1
          = evalGraph ops truthy env (traceComp t).1) ∧
    (b = false → traceComp (Comp.condPy b t e) = traceComp e ∧
        evalGraph ops truthy env (traceComp (Comp.condPy b t e)).1
          = evalGraph ops truthy env (traceComp e).1) := by
  constructor
  · rintro rfl
    exact ⟨by simp [traceComp], by simp [traceComp]⟩
  · rintro rfl
    exact ⟨by simp [traceComp], by simp [traceComp]⟩

/-- A then-branch that performs trace-time side effect 1. -/
def demoThen : Comp Int := Comp.tracePrint 1 (Comp.lit 5)

/-- An else-branch that performs trace-time side effect 2. -/
def demoElse : Comp Int := Comp.tracePrint 2 (Comp.lit 6)

/-- Witness for C5: with a true constant condition, the trace equals the
then-branch's trace; its side-effect log is exactly the then-branch's message
and the else-branch's message never fires. -/
theorem constant_conditional_taken_branch_only_witness :
    (true = true ∧
      traceComp (Comp.condPy true demoThen demoElse) = traceComp demoThen) ∧
    (traceComp (Comp.condPy true demoThen demoElse)).2 = [1] ∧
    (2 : Nat) ∉ (traceComp (Comp.condPy true demoThen demoElse)).2 :=
  ⟨⟨rfl,
      ((constant_conditional_taken_branch_only intOps intTruthy true demoThen
        demoElse envZero).1 rfl).1⟩,
    by decide, by decide⟩

/-- The notebook's `add(a, b) = a + b` (operation id 0 is the framework's
addition). -/
def addComp (V : Type) : Comp V := Comp.op2 0 (Comp.var 0) (Comp.var 1)

/-- The notebook's `double(a)`: a trace-time `print` followed by `a + a`. -/
def doubleComp (V : Type) : Comp V :=
  Comp.tracePrint 0 (Comp.op2 0 (Comp.var 0) (Comp.var 0))

/-- The notebook's `dense_layer(x, w, b) = add(matmul(x, w), b)` (operation
id 1 is the framework's matrix multiplication). -/
def denseLayerComp (V : Type) : Comp V :=
  Comp.op2 0 (Comp.op2 1 (Comp.var 0) (Comp.var 1)) (Comp.var 2)

/-- C9: for each example computation of the notebook (`add`, `double`,
`dense_layer`), invoking the compiled unit produced by tracing on any
arguments returns the value of executing the original computation directly on
those arguments, for every backend operation semantics. -/
theorem compiled_units_match_direct_execution (ops : Nat → V → V → V)
    (truthy : V → Bool) (env : Nat → V) :
    (evalGraph ops truthy env (traceComp (addComp V)).1).1
        = (eagerEval ops truthy env (addComp V)).1 ∧
    (evalGraph ops truthy env (traceComp (doubleComp V)).1).1
        = (eagerEval ops truthy env (doubleComp V)).1 ∧
    (evalGraph ops truthy env (traceComp (denseLayerComp V)).1).1
        = (eagerEval ops truthy env (denseLayerComp V)).1 :=
  ⟨evalGraph_traceComp ops truthy env (addComp V),
    evalGraph_traceComp ops truthy env (doubleComp V),
    evalGraph_traceComp ops truthy env (denseLayerComp V)⟩

/-- One iteration of the body of the notebook's `f`: `x = tf.tanh(x)`,
hyperbolic tangent applied componentwise, modelled over the reals. -/
noncomputable def tanhStep (x : List ℝ) : List ℝ := x.map Real.tanh

/-- The guard of the notebook's loop `while tf.reduce_sum(x) > 1`. -/
def loopGuard (x : List ℝ) : Prop := 1 < x.sum

/-- For positive arguments, `sinh x < x * cosh x`. -/
theorem sinh_lt_self_mul_cosh {x : ℝ} (hx : 0 < x) :
    Real.sinh x < x * Real.cosh x := by
  have hderiv : ∀ y : ℝ, HasDerivAt (fun z => z * Real.cosh z - Real.sinh z)
      (1 * Real.cosh y + y * Real.sinh y - Real.cosh y) y := by
    intro y
    exact ((hasDerivAt_id y).mul (Real.hasDerivAt_cosh y)).sub
      (Real.hasDerivAt_sinh y)
  have hmono : StrictMonoOn (fun z => z * Real.cosh z - Real.sinh z)
      (Set.Ici 0) := by
    apply strictMonoOn_of_deriv_pos (convex_Ici 0)
    · exact ((continuous_id.mul Real.continuous_cosh).sub
        Real.continuous_sinh).continuousOn
    · intro y hy
      rw [interior_Ici] at hy
      rw [(hderiv y).deriv]
      have h1 : (1 : ℝ) * Real.cosh y + y * Real.sinh y - Real.cosh y
          = y * Real.sinh y := by ring
      rw [h1]
      exact mul_pos hy (Real.sinh_pos_iff.mpr hy)
  have h0 : (fun z => z * Real.cosh z - Real.sinh z) 0 = 0 := by simp
  have hgx := hmono (Set.left_mem_Ici) (Set.mem_Ici.mpr hx.le) hx
  rw [h0] at hgx
  have hgx2 : 0 < x * Real.cosh x - Real.sinh x := hgx
  linarith

/-- For positive arguments, `tanh x < x`. -/
theorem tanh_lt_self {x : ℝ} (hx : 0 < x) : Real.tanh x < x := by
  rw [Real.tanh_eq_sinh_div_cosh]
  exact (div_lt_iff₀ (Real.cosh_pos x)).mpr (sinh_lt_self_mul_cosh hx)

/-- `tanh` is nonnegative on nonnegative arguments. -/
theorem tanh_nonneg {x : ℝ} (hx : 0 ≤ x) : 0 ≤ Real.tanh x := by
  rw [Real.tanh_eq_sinh_div_cosh]
  exact div_nonneg (Real.sinh_nonneg_iff.mpr hx) (Real.cosh_pos x).le

/-- `tanh x ≤ x` on nonnegative arguments. -/
theorem tanh_le_self {x : ℝ} (hx : 0 ≤ x) : Real.tanh x ≤ x := by
  rcases hx.lt_or_eq with h | h
  · exact (tanh_lt_self h).le
  · rw [← h]
    simp [Real.tanh_zero]

/-- Continuity of the real hyperbolic tangent. -/
theorem continuous_real_tanh : Continuous Real.tanh := by
  have h : Real.tanh = fun x => Real.sinh x / Real.cosh x :=
    funext fun x => Real.tanh_eq_sinh_div_cosh x
  rw [h]
  exact Real.continuous_sinh.div Real.continuous_cosh
    fun x => (Real.cosh_pos x).ne'

/-- Iterating `tanh` from a nonnegative start converges to 0. -/
theorem tendsto_iterate_tanh_of_nonneg {a : ℝ} (ha : 0 ≤ a) :
    Filter.Tendsto (fun k => Real.tanh^[k] a) Filter.atTop (nhds 0) := by
  set s : ℕ → ℝ := fun k => Real.tanh^[k] a with hs
  have hsucc : ∀ k, s (k + 1) = Real.tanh (s k) := by
    intro k
    simp [hs, Function.iterate_succ_apply']
  have hnn : ∀ k, 0 ≤ s k := by
    intro k
    induction k with
    | zero => simpa [hs] using ha
    | succ k ih =>
        rw [hsucc k]
        exact tanh_nonneg ih
  have hanti : Antitone s := by
    apply antitone_nat_of_succ_le
    intro k
    rw [hsucc k]
    exact tanh_le_self (hnn k)
  have hbdd : BddBelow (Set.range s) := by
    refine ⟨0, ?_⟩
    rintro y ⟨k, rfl⟩
    exact hnn k
  have hlim : Filter.Tendsto s Filter.atTop (nhds (⨅ k, s k)) :=
    tendsto_atTop_ciInf hanti hbdd
  have hL0 : 0 ≤ ⨅ k, s k := le_ciInf hnn
  have hshift : Filter.Tendsto (fun k => s (k + 1)) Filter.atTop
      (nhds (⨅ k, s k)) :=
    hlim.comp (Filter.tendsto_add_atTop_nat 1)
  have htanh : Filter.Tendsto (fun k => Real.tanh (s k)) Filter.atTop
      (nhds (Real.tanh (⨅ k, s k))) :=
    (continuous_real_tanh.tendsto _).comp hlim
  have hfun : (fun k => s (k + 1)) = fun k => Real.tanh (s k) :=
    funext hsucc
  rw [hfun] at hshift
  have hfix : Real.tanh (⨅ k, s k) = ⨅ k, s k :=
    tendsto_nhds_unique htanh hshift
  have hLzero : (⨅ k, s k) = 0 := by
    by_contra hne
    have hpos : 0 < ⨅ k, s k := lt_of_le_of_ne hL0 (Ne.symm hne)
    have hlt := tanh_lt_self hpos
    rw [hfix] at hlt
    exact lt_irrefl _ hlt
  rw [← hLzero]
  exact hlim

/-- Iterated `tanh` is odd. -/
theorem iterate_tanh_neg (a : ℝ) (k : ℕ) :
    Real.tanh^[k] (-a) = -(Real.tanh^[k] a) := by
  induction k with
  | zero => rfl
  | succ k ih =>
      rw [Function.iterate_succ_apply', Function.iterate_succ_apply', ih,
        Real.tanh_neg]

/-- Iterating `tanh` from any real start converges to 0. -/
theorem tendsto_iterate_tanh (a : ℝ) :
    Filter.Tendsto (fun k => Real.tanh^[k] a) Filter.atTop (nhds 0) := by
  rcases le_total 0 a with ha | ha
  · exact tendsto_iterate_tanh_of_nonneg ha
  · have h := (tendsto_iterate_tanh_of_nonneg (neg_nonneg.mpr ha)).neg
    have hfun : (fun k => -Real.tanh^[k] (-a)) = fun k => Real.tanh^[k] a := by
      funext k
      rw [iterate_tanh_neg, neg_neg]
    rw [hfun] at h
    simpa using h

/-- The loop body iterates `tanh` componentwise. -/
theorem tanhStep_iterate (x : List ℝ) (k : ℕ) :
    tanhStep^[k] x = x.map fun a => Real.tanh^[k] a := by
  induction k with
  | zero => simp
  | succ k ih =>
      rw [Function.iterate_succ_apply', ih]
      unfold tanhStep
      rw [List.map_map]
      congr 1
      funext a
      simp [Function.iterate_succ_apply']

/-- The sum of the loop state converges to 0. -/
theorem tendsto_sum_tanhStep (x : List ℝ) :
    Filter.Tendsto (fun k => (tanhStep^[k] x).sum) Filter.atTop (nhds 0) := by
  induction x with
  | nil =>
      simp only [tanhStep_iterate, List.map_nil, List.sum_nil]
      exact tendsto_const_nhds
  | cons a xs ih =>
      simp only [tanhStep_iterate, List.map_cons, List.sum_cons]
      have h2 : Filter.Tendsto
          (fun k => (xs.map fun b => Real.tanh^[k] b).sum) Filter.atTop
          (nhds 0) := by
        simpa only [tanhStep_iterate] using ih
      have h := (tendsto_iterate_tanh a).add h2
      simpa using h

/-- C10: for every real-valued input vector, the notebook's loop
`while tf.reduce_sum(x) > 1: x = tf.tanh(x)` terminates — componentwise
`tanh` drives every component to 0, so after finitely many iterations the sum
is at most 1 and the guard fails. -/
theorem tanh_while_loop_terminates (x : List ℝ) :
    ∃ n : ℕ, ¬loopGuard (tanhStep^[n] x) := by
  have h := (tendsto_sum_tanhStep x).eventually_lt_const
    (by norm_num : (0 : ℝ) < 1)
  obtain ⟨n, hn⟩ := h.exists
  exact ⟨n, not_lt.mpr hn.le⟩

end TF101
